import Mathlib

/-!
Verification of the ranking engine of the Comp-Models-Final-Project repository:
the matrix regularizer (matrix_loader.makeStochastic), the PageRank power
iteration (accessibility_ranker.pageRank / activation_ranker.pageRank), and the
HITS power iteration (accessibility_ranker.hypertextInducedTopicSearch).

Modelling conventions.
Matrices are total functions Fin n -> Fin n -> Q (or R for the HITS engine),
row index first, exactly mirroring the numpy indexing matrix[i][j] of the
source.  Floating-point numbers are modelled by exact rationals where the code
performs only field operations; the HITS engine divides by a Euclidean norm
(a genuine square root), so it is modelled over the reals with Real.sqrt.

The source compares the residual r = np.linalg.norm(d) (a square root) with
epsilon via r >= epsilon.  For nonnegative r and epsilon this comparison is
equivalent to r^2 >= epsilon^2, and r^2 is the rational sum of squares of d;
the rational model therefore stores squared residuals and compares them with
epsilon^2, which keeps every PageRank definition exactly executable.  The
initial residual is the literal 1.0 in the source, and 1^2 = 1, so the stored
initial squared residual is the same literal.
-/

namespace CompModels

/-- The row total `total = sum(matrix[i])` computed by
`matrix_loader.makeStochastic` for row `i`. -/
def rowSum (n : ℕ) (M : Fin n → Fin n → ℚ) (i : Fin n) : ℚ :=
  ∑ j, M i j

/-- Shallow embedding of `matrix_loader.makeStochastic`.  The source mutates
the matrix in place, row by row: for each row `i` it first computes
`total = sum(matrix[i])`; if `total == 0.` it sets every off-diagonal entry to
`1. / (len(matrix) - 1)` and leaves the diagonal entry untouched, otherwise it
divides every entry of the row by `total`.  Each entry is written exactly once
from its original value and `total` is read before any write to row `i`, so the
in-place update is equivalent to this functional form. -/
def makeStochastic (n : ℕ) (M : Fin n → Fin n → ℚ) : Fin n → Fin n → ℚ :=
  fun i j =>
    if rowSum n M i = 0 then
      (if i ≠ j then 1 / ((n : ℚ) - 1) else M i j)
    else M i j / rowSum n M i

/-- Concrete instance for the regularizer invariant: a 2-node matrix with one
weighted row and one dangling row. -/
def exM2 : Fin 2 → Fin 2 → ℚ := fun i j => if i = 0 ∧ j = 0 then 2 else 0

/-- Concrete 3-node matrix whose third row is entirely zero. -/
def exM3 : Fin 3 → Fin 3 → ℚ := fun i j => if i = 2 then 0 else if i = j then 0 else 1

/-- The 1×1 all-zero matrix: a single dangling node. -/
def zeroMat1 : Fin 1 → Fin 1 → ℚ := fun _ _ => 0

/-! ## PageRank (accessibility_ranker.pageRank / activation_ranker.pageRank)

Both pageRank drafts perform the same arithmetic: the Google-matrix transform
`matrix[i][j] = alpha * matrix[i][j] + ERatio` with
`ERatio = (1 - alpha) * (1 / n)`, then the power iteration
`pi = pi @ matrix` from the uniform row vector, stopping as soon as
`residual = norm(prevpi - pi)` drops below epsilon (the residual starts at the
literal 1.0, so with epsilon above 1 the loop body never runs).  The activation
draft additionally counts iterations; the iterate values are identical.  -/

/-- The input matrix is row-stochastic: nonnegative entries, each row summing
to 1 (the form produced by makeStochastic and assumed by pageRank). -/
def rowStochastic (n : ℕ) (M : Fin n → Fin n → ℚ) : Prop :=
  (∀ i j, 0 ≤ M i j) ∧ ∀ i, ∑ j, M i j = 1

/-- The Google matrix `G[i][j] = alpha * M[i][j] + (1 - alpha) * (1 / n)`
built by the elementwise transform loop of pageRank. -/
def googleM (n : ℕ) (α : ℚ) (M : Fin n → Fin n → ℚ) : Fin n → Fin n → ℚ :=
  fun i j => α * M i j + (1 - α) * (1 / (n : ℚ))

/-- Row vector times matrix: `np.matmul(pi, matrix)` for a `(1, n)` row
vector. -/
def vecMul (n : ℕ) (v : Fin n → ℚ) (M : Fin n → Fin n → ℚ) : Fin n → ℚ :=
  fun j => ∑ i, v i * M i j

/-- Squared Euclidean norm: the square of `np.linalg.norm`. -/
def sqNorm (n : ℕ) (v : Fin n → ℚ) : ℚ := ∑ i, v i ^ 2

/-- The PageRank iterates: `piSeq 0` is the uniform row vector
`(1 / n) * np.ones((1, n))` and each loop pass multiplies by the Google
matrix. -/
def piSeq (n : ℕ) (α : ℚ) (M : Fin n → Fin n → ℚ) : ℕ → Fin n → ℚ
  | 0 => fun _ => 1 / (n : ℚ)
  | k + 1 => vecMul n (piSeq n α M k) (googleM n α M)

/-- The squared residual held by the loop variable `residual` when the guard
is tested for the k-th time: the literal 1.0 before the first pass, and
afterwards the squared norm of the difference of successive iterates.
(The guard `residual >= epsilon` on nonnegative values is equivalent to
`residual^2 >= epsilon^2`.) -/
def residSq (n : ℕ) (α : ℚ) (M : Fin n → Fin n → ℚ) : ℕ → ℚ
  | 0 => 1
  | k + 1 => sqNorm n (fun i => piSeq n α M k i - piSeq n α M (k + 1) i)

/-- The while loop exits exactly after its k-th guard test: the k-th residual
is below epsilon and no earlier one was.  The value returned by pageRank is
then `piSeq k`. -/
def prExitAt (n : ℕ) (α ε : ℚ) (M : Fin n → Fin n → ℚ) (k : ℕ) : Prop :=
  residSq n α M k < ε ^ 2 ∧ ∀ j < k, ε ^ 2 ≤ residSq n α M j

/-- The l1 norm used to control the contraction argument. -/
def l1Norm (n : ℕ) (v : Fin n → ℚ) : ℚ := ∑ i, |v i|

/-- The 1×1 matrix of the single-node complete graph, used as the concrete
instance for the PageRank theorems. -/
def oneM1 : Fin 1 → Fin 1 → ℚ := fun _ _ => 1

/-- The 3-node fully connected uniform stochastic matrix: every row is
[1/3, 1/3, 1/3]. -/
def unifM3 : Fin 3 → Fin 3 → ℚ := fun _ _ => 1 / 3

/-! ## HITS (accessibility_ranker.hypertextInducedTopicSearch)

The canonical HITS engine (the spec designates the accessibility_ranker draft
as authoritative) coerces the matrix with `astype(bool).astype(int)`, builds
`authMatrix = transpose(L) @ L` and `hubMatrix = L @ transpose(L)`, and then
iterates `x = xi * (x @ authMatrix) + ERatio` followed by `x /= norm(x)` (and
likewise for y with the hub matrix), with
`residual = norm(prevx - x) + norm(prevy - y)` tested against epsilon.
Because each pass divides by a Euclidean norm, this engine is modelled over
the reals with Real.sqrt; its definitions are therefore noncomputable, and
concrete instances are evaluated with simp and the sqrt lemmas. -/

noncomputable section

/-- The presence matrix `L = matrix.astype(bool).astype(int)` (kept as a real
matrix, as the source immediately casts the products back to float). -/
def toBin (n : ℕ) (M : Fin n → Fin n → ℝ) : Fin n → Fin n → ℝ :=
  fun i j => if M i j = 0 then 0 else 1

/-- `authMatrix = (transL @ L).astype(float)`: entry (i,j) is
`sum_k L[k][i] * L[k][j]`. -/
def authMatrix (n : ℕ) (M : Fin n → Fin n → ℝ) : Fin n → Fin n → ℝ :=
  fun i j => ∑ k, toBin n M k i * toBin n M k j

/-- `hubMatrix = (L @ transL).astype(float)`: entry (i,j) is
`sum_k L[i][k] * L[j][k]`. -/
def hubMatrix (n : ℕ) (M : Fin n → Fin n → ℝ) : Fin n → Fin n → ℝ :=
  fun i j => ∑ k, toBin n M i k * toBin n M j k

/-- Euclidean norm `np.linalg.norm`. -/
def norm2 (n : ℕ) (v : Fin n → ℝ) : ℝ := Real.sqrt (∑ i, v i ^ 2)

/-- One damped multiply-and-teleport update,
`xi * np.matmul(v, A) + ERatio` with `ERatio = (1 - xi) * (1 / n)`. -/
def hitsRaw (n : ℕ) (ξ : ℝ) (A : Fin n → Fin n → ℝ) (v : Fin n → ℝ) :
    Fin n → ℝ :=
  fun j => ξ * (∑ i, v i * A i j) + (1 - ξ) * (1 / (n : ℝ))

/-- The in-place renormalization `v /= np.linalg.norm(v)`. -/
def hitsNormalize (n : ℕ) (v : Fin n → ℝ) : Fin n → ℝ :=
  fun j => v j / norm2 n v

/-- The loop state of hypertextInducedTopicSearch: the two score vectors and
the residual variable. -/
structure HitsState (n : ℕ) where
  x : Fin n → ℝ
  y : Fin n → ℝ
  resid : ℝ

/-- One pass of the while loop: damped update of both vectors, normalization
of both, then the residual `norm(prevx - x) + norm(prevy - y)`. -/
def hitsStep (n : ℕ) (ξ : ℝ) (M : Fin n → Fin n → ℝ) (s : HitsState n) :
    HitsState n :=
  ⟨hitsNormalize n (hitsRaw n ξ (authMatrix n M) s.x),
   hitsNormalize n (hitsRaw n ξ (hubMatrix n M) s.y),
   norm2 n (fun i => s.x i - hitsNormalize n (hitsRaw n ξ (authMatrix n M) s.x) i)
     + norm2 n (fun i => s.y i - hitsNormalize n (hitsRaw n ξ (hubMatrix n M) s.y) i)⟩

/-- The loop state when the guard is tested for the k-th time; both vectors
start uniform and the residual starts at the literal 1.0. -/
def hitsSeq (n : ℕ) (ξ : ℝ) (M : Fin n → Fin n → ℝ) : ℕ → HitsState n
  | 0 => ⟨fun _ => 1 / (n : ℝ), fun _ => 1 / (n : ℝ), 1⟩
  | k + 1 => hitsStep n ξ M (hitsSeq n ξ M k)

/-- The while loop exits exactly after its k-th guard test; the function then
returns the pair of score vectors of that state. -/
def hitsExitAt (n : ℕ) (ξ ε : ℝ) (M : Fin n → Fin n → ℝ) (k : ℕ) : Prop :=
  (hitsSeq n ξ M k).resid < ε ∧ ∀ j < k, ε ≤ (hitsSeq n ξ M j).resid

/-- The 1×1 all-zero real matrix, the concrete instance for the HITS exit
theorem: its binary form and both derived matrices are zero, so the first pass
maps the uniform vector to the normalized teleportation vector [1], and the
loop exits at the second guard test. -/
def zeroR1 : Fin 1 → Fin 1 → ℝ := fun _ _ => 0

/-- A 1×1 matrix with entry 1. -/
def oneR1 : Fin 1 → Fin 1 → ℝ := fun _ _ => 1

/-- A 1×1 matrix with entry 2: same support as oneR1, different weights. -/
def twoR1 : Fin 1 → Fin 1 → ℝ := fun _ _ => 2

end

/-! ## Shape behaviour on malformed input (claim C8)

Neither pageRank nor hypertextInducedTopicSearch contains any validation
code: there is no InvalidShapeError, no squareness check, no negativity
check and no row-sum check anywhere in the rankers.  To examine what
actually happens on a non-square input the functions are re-modelled here on
length-carrying lists of rows, with the numpy shape rules made explicit:
`np.matmul(v, M)` for a row vector requires `len(v) = number of rows of M`
and produces a vector whose length is the number of columns of M, and
`np.subtract(a, b)` on two row vectors requires equal lengths (numpy
broadcasting of size-1 axes never applies to the length-4 versus length-5
operands that arise below).  Matrices are rectangular lists of rows, exactly
as numpy 2-D arrays are; products and the transpose are written index-wise,
which on rectangular data agrees with numpy entry for entry. -/

/-- The numpy error surfaced by a shape-incompatible operation, and the fuel
marker for the (unbounded) while loop. -/
inductive NpError where
  | matmulMismatch : ℕ → ℕ → NpError
  | broadcastMismatch : ℕ → ℕ → NpError
  | fuelExhausted : NpError
  deriving DecidableEq

/-- Number of columns of a rectangular list-of-rows matrix. -/
def colCount (M : List (List ℚ)) : ℕ := (M.headD []).length

/-- Entry j of the product of row vector `v` with matrix `M`:
`sum_i v[i] * M[i][j]`. -/
def dotColumn (v : List ℚ) (M : List (List ℚ)) (j : ℕ) : ℚ :=
  (List.zipWith (fun a row => a * row.getD j 0) v M).sum

/-- `np.matmul(v, M)` for a row vector: defined exactly when the inner
dimensions agree, producing one entry per column of M. -/
def npVecMatMul (v : List ℚ) (M : List (List ℚ)) : Option (List ℚ) :=
  if v.length = M.length then
    some ((List.range (colCount M)).map (dotColumn v M))
  else none

/-- `np.subtract(a, b)` on two row vectors: defined exactly when the lengths
agree. -/
def npSub (v w : List ℚ) : Option (List ℚ) :=
  if v.length = w.length then some (List.zipWith (fun a b => a - b) v w)
  else none

/-- Squared Euclidean norm of a list vector (see the squared-residual
convention in the header). -/
def sqNormL (v : List ℚ) : ℚ := (v.map (fun a => a ^ 2)).sum

/-- The Google-matrix transform loop of pageRank on a list matrix: both loop
indices run over `range(len(matrix))`, so on a non-square matrix only the
first `len(matrix)` entries of each row are damped and shifted; the remaining
entries are left untouched. -/
def googleTransformL (α : ℚ) (M : List (List ℚ)) : List (List ℚ) :=
  M.map fun row => row.mapIdx fun j a =>
    if j < M.length then α * a + (1 - α) * (1 / (M.length : ℚ)) else a

/-- The pageRank while loop on the list model: test the (squared) residual,
multiply the iterate by G, subtract the previous iterate, and recurse; each
numpy operation propagates its shape error. -/
def pageRankLoopL (G : List (List ℚ)) (εsq : ℚ) :
    ℕ → List ℚ → ℚ → Except NpError (List ℚ)
  | 0, piv, r =>
      if r < εsq then Except.ok piv else Except.error NpError.fuelExhausted
  | fuel + 1, piv, r =>
      if r < εsq then Except.ok piv
      else
        match npVecMatMul piv G with
        | none => Except.error (NpError.matmulMismatch piv.length G.length)
        | some piv2 =>
            match npSub piv piv2 with
            | none => Except.error (NpError.broadcastMismatch piv.length piv2.length)
            | some d => pageRankLoopL G εsq fuel piv2 (sqNormL d)

/-- The list model of pageRank: Google transform, uniform start vector of
length `len(matrix)`, initial residual literal 1, then the loop. -/
def pageRankL (M : List (List ℚ)) (α ε : ℚ) (fuel : ℕ) : Except NpError (List ℚ) :=
  pageRankLoopL (googleTransformL α M) (ε ^ 2) fuel
    (List.replicate M.length (1 / (M.length : ℚ))) 1

/-- `matrix.astype(bool).astype(int)` on the list model. -/
def toBinL (M : List (List ℚ)) : List (List ℚ) :=
  M.map fun row => row.map fun a => if a = 0 then (0 : ℚ) else 1

/-- `np.matrix.transpose` of a rectangular list matrix, written index-wise. -/
def transposeL (M : List (List ℚ)) : List (List ℚ) :=
  (List.range (colCount M)).map fun j => M.map fun row => row.getD j 0

/-- `np.matmul` of two matrices: defined exactly when every row of A has the
inner dimension of B. -/
def npMatMul (A B : List (List ℚ)) : Option (List (List ℚ)) :=
  if A.all (fun row => row.length = B.length) then
    some (A.map fun row => (List.range (colCount B)).map (dotColumn row B))
  else none

/-- The authority matrix `transL @ L` computed by
hypertextInducedTopicSearch. -/
def hitsAuthL (M : List (List ℚ)) : Option (List (List ℚ)) :=
  npMatMul (transposeL (toBinL M)) (toBinL M)

/-- The first damped multiply of the HITS loop,
`np.matmul(x, authMatrix)` on the uniform start vector of length
`len(matrix)`. -/
def hitsFirstMul (M : List (List ℚ)) : Option (List ℚ) :=
  (hitsAuthL M).bind fun A =>
    npVecMatMul (List.replicate M.length (1 / (M.length : ℚ))) A

/-- A 4×5 non-square input matrix. -/
def mat45 : List (List ℚ) :=
  [[1, 0, 0, 0, 1], [0, 1, 0, 0, 0], [0, 0, 1, 0, 0], [0, 0, 0, 1, 0]]

/-- In a matrix with nonnegative entries, a row with zero total is entrywise
zero. -/
lemma row_eq_zero_of_rowSum_eq_zero (n : ℕ) (M : Fin n → Fin n → ℚ)
    (hM : ∀ i j, 0 ≤ M i j) (i : Fin n) (h : rowSum n M i = 0) :
    ∀ j, M i j = 0 := by
  intro j
  have := (Finset.sum_eq_zero_iff_of_nonneg (fun j _ => hM i j)).mp h
  exact this j (Finset.mem_univ j)

/-- A dangling row is rewritten to the uniform distribution over the other
`n - 1` nodes, which sums to 1. -/
lemma sum_row_dangling (n : ℕ) (hn : 2 ≤ n) (i : Fin n) :
    (∑ j, if i ≠ j then 1 / ((n : ℚ) - 1) else 0) = 1 := by
  have h2 : (2 : ℚ) ≤ (n : ℚ) := by exact_mod_cast hn
  have hne : (n : ℚ) - 1 ≠ 0 := by
    intro h
    linarith
  have hsplit : ∀ j : Fin n, (if i ≠ j then 1 / ((n : ℚ) - 1) else 0)
      = 1 / ((n : ℚ) - 1) - (if i = j then 1 / ((n : ℚ) - 1) else 0) := by
    intro j
    by_cases h : i = j <;> simp [h]
  rw [Finset.sum_congr rfl (fun j _ => hsplit j), Finset.sum_sub_distrib,
    Finset.sum_const, Finset.sum_ite_eq]
  simp only [Finset.mem_univ, if_pos, Finset.card_univ, Fintype.card_fin,
    nsmul_eq_mul]
  field_simp

/-- Every row of the regularized matrix sums to 1 when `n ≥ 2` and the input
is nonnegative. -/
lemma makeStochastic_row_sum (n : ℕ) (M : Fin n → Fin n → ℚ)
    (hn : 2 ≤ n) (hM : ∀ i j, 0 ≤ M i j) (i : Fin n) :
    ∑ j, makeStochastic n M i j = 1 := by
  unfold makeStochastic
  by_cases h : rowSum n M i = 0
  · have hz := row_eq_zero_of_rowSum_eq_zero n M hM i h
    have hcongr : ∀ j : Fin n,
        (if i ≠ j then 1 / ((n : ℚ) - 1) else M i j)
          = (if i ≠ j then 1 / ((n : ℚ) - 1) else 0) := by
      intro j
      by_cases hij : i = j
      · rw [← hij]
        simp [hz i]
      · simp [hij]
    calc (∑ j, if rowSum n M i = 0 then (if i ≠ j then 1 / ((n : ℚ) - 1) else M i j)
            else M i j / rowSum n M i)
        = ∑ j, (if i ≠ j then 1 / ((n : ℚ) - 1) else 0) := by
          refine Finset.sum_congr rfl fun j _ => ?_
          rw [if_pos h, hcongr j]
      _ = 1 := sum_row_dangling n hn i
  · have := Finset.sum_div Finset.univ (fun j => M i j) (rowSum n M i)
    calc (∑ j, if rowSum n M i = 0 then (if i ≠ j then 1 / ((n : ℚ) - 1) else M i j)
            else M i j / rowSum n M i)
        = ∑ j, M i j / rowSum n M i := by
          refine Finset.sum_congr rfl fun j _ => ?_
          rw [if_neg h]
      _ = (∑ j, M i j) / rowSum n M i := (Finset.sum_div _ _ _).symm
      _ = 1 := div_self h

/-- Claim C3: for every square nonnegative matrix with n at least 2, after
makeStochastic runs every row sums to 1, no row is entirely zero, and each row
whose original sum S was positive ends up with every entry equal to its
original value divided by S.  In the exact rational model the row sums are
exactly 1, which implies the floating-tolerance statement. -/
theorem makeStochastic_invariant (n : ℕ) (M : Fin n → Fin n → ℚ)
    (hn : 2 ≤ n) (hM : ∀ i j, 0 ≤ M i j) :
    (∀ i, ∑ j, makeStochastic n M i j = 1) ∧
    (∀ i, ∃ j, makeStochastic n M i j ≠ 0) ∧
    (∀ i, 0 < rowSum n M i → ∀ j, makeStochastic n M i j = M i j / rowSum n M i) := by
  refine ⟨fun i => makeStochastic_row_sum n M hn hM i, fun i => ?_, fun i hpos j => ?_⟩
  · by_contra hall
    push_neg at hall
    have : ∑ j, makeStochastic n M i j = 0 :=
      Finset.sum_eq_zero fun j _ => hall j
    rw [makeStochastic_row_sum n M hn hM i] at this
    norm_num at this
  · unfold makeStochastic
    rw [if_neg (ne_of_gt hpos)]

/-- Witness for claim C3 at a concrete 2-node input. -/
theorem makeStochastic_invariant_witness :
    (∀ i, ∑ j, makeStochastic 2 exM2 i j = 1) ∧
    (∀ i, ∃ j, makeStochastic 2 exM2 i j ≠ 0) ∧
    (∀ i, 0 < rowSum 2 exM2 i → ∀ j, makeStochastic 2 exM2 i j = exM2 i j / rowSum 2 exM2 i) :=
  makeStochastic_invariant 2 exM2 (by norm_num) (by decide)

/-- Claim C4: a dangling (all-zero) row of a nonnegative matrix with n at
least 2 is rewritten so that every off-diagonal entry equals 1/(n-1) and the
diagonal entry is 0. -/
theorem makeStochastic_dangling_row (n : ℕ) (M : Fin n → Fin n → ℚ)
    (hn : 2 ≤ n) (hM : ∀ i j, 0 ≤ M i j) (i : Fin n) (hrow : ∀ j, M i j = 0) :
    (∀ j, j ≠ i → makeStochastic n M i j = 1 / ((n : ℚ) - 1)) ∧
    makeStochastic n M i i = 0 := by
  have hzero : rowSum n M i = 0 := by
    unfold rowSum
    exact Finset.sum_eq_zero fun j _ => hrow j
  constructor
  · intro j hj
    unfold makeStochastic
    rw [if_pos hzero, if_pos (Ne.symm hj)]
  · unfold makeStochastic
    rw [if_pos hzero, if_neg (by simp)]
    exact hrow i

/-- Witness for claim C4: in the 3-node instance the dangling third row
becomes [0.5, 0.5, 0]. -/
theorem makeStochastic_dangling_row_witness :
    makeStochastic 3 exM3 2 0 = 1 / 2 ∧ makeStochastic 3 exM3 2 1 = 1 / 2 ∧
    makeStochastic 3 exM3 2 2 = 0 := by
  have h := makeStochastic_dangling_row 3 exM3 (by norm_num) (by decide) 2 (by decide)
  refine ⟨?_, ?_, h.2⟩
  · rw [h.1 0 (by decide)]
    norm_num
  · rw [h.1 1 (by decide)]
    norm_num

/-- Claim C7 (code behaviour at the failing input): on a 1×1 matrix with a
dangling row, makeStochastic raises no error and performs no division by
n - 1 = 0; the inner loop body is skipped entirely (the only column index
equals the row index), so the matrix is returned unchanged and its row still
sums to 0, violating the documented row-sum invariant. -/
theorem makeStochastic_n1_dangling_unchanged :
    (∀ i j, makeStochastic 1 zeroMat1 i j = 0) ∧
    (∑ j, makeStochastic 1 zeroMat1 0 j) ≠ 1 := by
  have hval : ∀ i j, makeStochastic 1 zeroMat1 i j = 0 := by
    intro i j
    simp [makeStochastic, rowSum, zeroMat1, Subsingleton.elim i j]
  refine ⟨hval, ?_⟩
  rw [Fin.sum_univ_one, hval 0 0]
  norm_num

/-- The Google matrix of a row-stochastic matrix has rows summing to 1. -/
lemma googleM_row_sum (n : ℕ) (α : ℚ) (M : Fin n → Fin n → ℚ)
    (hn : 0 < n) (hM : rowStochastic n M) (i : Fin n) :
    ∑ j, googleM n α M i j = 1 := by
  have hnQ : ((n : ℚ)) ≠ 0 := Nat.cast_ne_zero.mpr hn.ne'
  unfold googleM
  rw [Finset.sum_add_distrib, ← Finset.mul_sum, hM.2 i, Finset.sum_const,
    Finset.card_univ, Fintype.card_fin, nsmul_eq_mul]
  field_simp

/-- The Google matrix of a nonnegative matrix has nonnegative entries for
0 ≤ alpha ≤ 1. -/
lemma googleM_nonneg (n : ℕ) (α : ℚ) (M : Fin n → Fin n → ℚ)
    (hM : ∀ i j, 0 ≤ M i j) (hα0 : 0 ≤ α) (hα1 : α ≤ 1) (i j : Fin n) :
    0 ≤ googleM n α M i j := by
  unfold googleM
  have h1 : 0 ≤ α * M i j := mul_nonneg hα0 (hM i j)
  have h2 : 0 ≤ (1 - α) * (1 / (n : ℚ)) := by
    refine mul_nonneg (by linarith) (by positivity)
  linarith

/-- Every PageRank iterate sums to 1. -/
lemma piSeq_sum (n : ℕ) (α : ℚ) (M : Fin n → Fin n → ℚ)
    (hn : 0 < n) (hM : rowStochastic n M) (k : ℕ) :
    ∑ i, piSeq n α M k i = 1 := by
  induction k with
  | zero =>
      have hnQ : ((n : ℚ)) ≠ 0 := Nat.cast_ne_zero.mpr hn.ne'
      simp only [piSeq, Finset.sum_const, Finset.card_univ, Fintype.card_fin,
        nsmul_eq_mul]
      field_simp
  | succ k ih =>
      calc ∑ j, piSeq n α M (k + 1) j
          = ∑ j, ∑ i, piSeq n α M k i * googleM n α M i j := rfl
        _ = ∑ i, ∑ j, piSeq n α M k i * googleM n α M i j := by
            rw [Finset.sum_comm]
        _ = ∑ i, piSeq n α M k i * ∑ j, googleM n α M i j := by
            refine Finset.sum_congr rfl fun i _ => ?_
            rw [Finset.mul_sum]
        _ = ∑ i, piSeq n α M k i := by
            refine Finset.sum_congr rfl fun i _ => ?_
            rw [googleM_row_sum n α M hn hM i, mul_one]
        _ = 1 := ih

/-- Every PageRank iterate is entrywise nonnegative. -/
lemma piSeq_nonneg (n : ℕ) (α : ℚ) (M : Fin n → Fin n → ℚ)
    (hM : rowStochastic n M) (hα0 : 0 ≤ α) (hα1 : α ≤ 1) (k : ℕ) (i : Fin n) :
    0 ≤ piSeq n α M k i := by
  induction k generalizing i with
  | zero =>
      simp only [piSeq]
      positivity
  | succ k ih =>
      show 0 ≤ ∑ l, piSeq n α M k l * googleM n α M l i
      refine Finset.sum_nonneg fun l _ => ?_
      exact mul_nonneg (ih l) (googleM_nonneg n α M hM.1 hα0 hα1 l i)

/-- The difference of successive iterates contracts through the Google matrix
into alpha times the difference pushed through M alone: the teleportation term
cancels because the difference has coordinate sum zero. -/
lemma diff_succ (n : ℕ) (α : ℚ) (M : Fin n → Fin n → ℚ)
    (hn : 0 < n) (hM : rowStochastic n M) (k : ℕ) (j : Fin n) :
    piSeq n α M (k + 1) j - piSeq n α M (k + 2) j
      = α * ∑ i, (piSeq n α M k i - piSeq n α M (k + 1) i) * M i j := by
  have hzero : ∑ i, (piSeq n α M k i - piSeq n α M (k + 1) i) = 0 := by
    rw [Finset.sum_sub_distrib, piSeq_sum n α M hn hM k,
      piSeq_sum n α M hn hM (k + 1), sub_self]
  calc piSeq n α M (k + 1) j - piSeq n α M (k + 2) j
      = ∑ i, (piSeq n α M k i - piSeq n α M (k + 1) i) * googleM n α M i j := by
        show vecMul n (piSeq n α M k) (googleM n α M) j
            - vecMul n (piSeq n α M (k + 1)) (googleM n α M) j = _
        unfold vecMul
        rw [← Finset.sum_sub_distrib]
        refine Finset.sum_congr rfl fun i _ => ?_
        ring
    _ = ∑ i, ((piSeq n α M k i - piSeq n α M (k + 1) i) * (α * M i j)
          + (piSeq n α M k i - piSeq n α M (k + 1) i) * ((1 - α) * (1 / (n : ℚ)))) := by
        refine Finset.sum_congr rfl fun i _ => ?_
        unfold googleM
        ring
    _ = α * ∑ i, (piSeq n α M k i - piSeq n α M (k + 1) i) * M i j := by
        rw [Finset.sum_add_distrib, ← Finset.sum_mul, hzero, zero_mul, add_zero,
          Finset.mul_sum]
        refine Finset.sum_congr rfl fun i _ => ?_
        ring

lemma l1Norm_nonneg (n : ℕ) (v : Fin n → ℚ) : 0 ≤ l1Norm n v :=
  Finset.sum_nonneg fun i _ => abs_nonneg (v i)

/-- Pushing a coordinate-sum-zero difference through a row-stochastic matrix
does not increase its l1 norm, so one loop pass scales it by alpha. -/
lemma l1_contract (n : ℕ) (α : ℚ) (M : Fin n → Fin n → ℚ)
    (hn : 0 < n) (hM : rowStochastic n M) (hα0 : 0 ≤ α) (k : ℕ) :
    l1Norm n (fun j => piSeq n α M (k + 1) j - piSeq n α M (k + 2) j)
      ≤ α * l1Norm n (fun j => piSeq n α M k j - piSeq n α M (k + 1) j) := by
  unfold l1Norm
  calc ∑ j, |piSeq n α M (k + 1) j - piSeq n α M (k + 2) j|
      = ∑ j, |α * ∑ i, (piSeq n α M k i - piSeq n α M (k + 1) i) * M i j| := by
        refine Finset.sum_congr rfl fun j _ => ?_
        rw [diff_succ n α M hn hM k j]
    _ = ∑ j, α * |∑ i, (piSeq n α M k i - piSeq n α M (k + 1) i) * M i j| := by
        refine Finset.sum_congr rfl fun j _ => ?_
        rw [abs_mul, abs_of_nonneg hα0]
    _ ≤ ∑ j, α * ∑ i, |piSeq n α M k i - piSeq n α M (k + 1) i| * M i j := by
        refine Finset.sum_le_sum fun j _ => ?_
        refine mul_le_mul_of_nonneg_left ?_ hα0
        calc |∑ i, (piSeq n α M k i - piSeq n α M (k + 1) i) * M i j|
            ≤ ∑ i, |(piSeq n α M k i - piSeq n α M (k + 1) i) * M i j| :=
              Finset.abs_sum_le_sum_abs _ _
          _ = ∑ i, |piSeq n α M k i - piSeq n α M (k + 1) i| * M i j := by
              refine Finset.sum_congr rfl fun i _ => ?_
              rw [abs_mul, abs_of_nonneg (hM.1 i j)]
    _ = α * ∑ i, |piSeq n α M k i - piSeq n α M (k + 1) i| * ∑ j, M i j := by
        rw [← Finset.mul_sum, Finset.sum_comm]
        congr 1
        refine Finset.sum_congr rfl fun i _ => ?_
        rw [Finset.mul_sum]
    _ = α * ∑ i, |piSeq n α M k i - piSeq n α M (k + 1) i| := by
        congr 1
        refine Finset.sum_congr rfl fun i _ => ?_
        rw [hM.2 i, mul_one]

/-- The first difference of iterates has l1 norm at most 2 (both iterates are
probability vectors). -/
lemma l1_first (n : ℕ) (α : ℚ) (M : Fin n → Fin n → ℚ)
    (hn : 0 < n) (hM : rowStochastic n M) (hα0 : 0 ≤ α) (hα1 : α ≤ 1) :
    l1Norm n (fun j => piSeq n α M 0 j - piSeq n α M 1 j) ≤ 2 := by
  unfold l1Norm
  calc ∑ j, |piSeq n α M 0 j - piSeq n α M 1 j|
      ≤ ∑ j, (piSeq n α M 0 j + piSeq n α M 1 j) := by
        refine Finset.sum_le_sum fun j _ => ?_
        have h0 := piSeq_nonneg n α M hM hα0 hα1 0 j
        have h1 := piSeq_nonneg n α M hM hα0 hα1 1 j
        rw [abs_sub_le_iff]
        constructor <;> linarith
    _ = 2 := by
        rw [Finset.sum_add_distrib, piSeq_sum n α M hn hM 0,
          piSeq_sum n α M hn hM 1]
        norm_num

/-- Geometric decay of the l1 norm of successive differences. -/
lemma l1_decay (n : ℕ) (α : ℚ) (M : Fin n → Fin n → ℚ)
    (hn : 0 < n) (hM : rowStochastic n M) (hα0 : 0 ≤ α) (hα1 : α ≤ 1) (k : ℕ) :
    l1Norm n (fun j => piSeq n α M k j - piSeq n α M (k + 1) j) ≤ 2 * α ^ k := by
  induction k with
  | zero =>
      simpa using l1_first n α M hn hM hα0 hα1
  | succ k ih =>
      calc l1Norm n (fun j => piSeq n α M (k + 1) j - piSeq n α M (k + 2) j)
          ≤ α * l1Norm n (fun j => piSeq n α M k j - piSeq n α M (k + 1) j) :=
            l1_contract n α M hn hM hα0 k
        _ ≤ α * (2 * α ^ k) := mul_le_mul_of_nonneg_left ih hα0
        _ = 2 * α ^ (k + 1) := by ring

/-- The squared Euclidean norm is bounded by the square of the l1 norm. -/
lemma sqNorm_le_l1_sq (n : ℕ) (v : Fin n → ℚ) :
    sqNorm n v ≤ (l1Norm n v) ^ 2 := by
  unfold sqNorm l1Norm
  calc ∑ i, v i ^ 2
      = ∑ i, |v i| * |v i| := by
        refine Finset.sum_congr rfl fun i _ => ?_
        rw [abs_mul_abs_self]
        ring
    _ ≤ ∑ i, |v i| * ∑ j, |v j| := by
        refine Finset.sum_le_sum fun i _ => ?_
        refine mul_le_mul_of_nonneg_left ?_ (abs_nonneg (v i))
        exact Finset.single_le_sum (fun j _ => abs_nonneg (v j)) (Finset.mem_univ i)
    _ = (∑ i, |v i|) ^ 2 := by
        rw [← Finset.sum_mul]
        ring

/-- Claim C1: for every row-stochastic matrix, alpha in (0,1) and epsilon
above 0, the Google matrix G has entries alpha*M[i][j] + (1-alpha)/n, is
strictly positive and row-stochastic, and the power-iteration while loop
terminates: some residual test eventually succeeds (squared residuals are
compared with epsilon squared, which is equivalent for nonnegative values). -/
theorem pageRank_google_matrix_and_terminates (n : ℕ) (α ε : ℚ)
    (M : Fin n → Fin n → ℚ) (hn : 0 < n) (hM : rowStochastic n M)
    (hα0 : 0 < α) (hα1 : α < 1) (hε : 0 < ε) :
    (∀ i j, googleM n α M i j = α * M i j + (1 - α) / (n : ℚ)) ∧
    (∀ i j, 0 < googleM n α M i j) ∧
    (∀ i, ∑ j, googleM n α M i j = 1) ∧
    (∃ k, residSq n α M k < ε ^ 2) := by
  have hnQ : (0 : ℚ) < (n : ℚ) := by exact_mod_cast hn
  refine ⟨fun i j => ?_, fun i j => ?_, googleM_row_sum n α M hn hM, ?_⟩
  · unfold googleM
    ring
  · unfold googleM
    have h1 : 0 ≤ α * M i j := mul_nonneg hα0.le (hM.1 i j)
    have h2 : 0 < (1 - α) * (1 / (n : ℚ)) := by
      refine mul_pos (by linarith) (by positivity)
    linarith
  · obtain ⟨m, hm⟩ := exists_pow_lt_of_lt_one (show (0 : ℚ) < ε ^ 2 / 4 by positivity) hα1
    refine ⟨m + 1, ?_⟩
    have h2 : residSq n α M (m + 1)
        ≤ (l1Norm n (fun i => piSeq n α M m i - piSeq n α M (m + 1) i)) ^ 2 :=
      sqNorm_le_l1_sq n _
    have h3 : l1Norm n (fun i => piSeq n α M m i - piSeq n α M (m + 1) i)
        ≤ 2 * α ^ m := l1_decay n α M hn hM hα0.le hα1.le m
    have h4 : (l1Norm n (fun i => piSeq n α M m i - piSeq n α M (m + 1) i)) ^ 2
        ≤ (2 * α ^ m) ^ 2 := by
      refine pow_le_pow_left₀ (l1Norm_nonneg n _) h3 2
    have h5 : (α ^ m) ^ 2 ≤ α ^ m := by
      have hnn : 0 ≤ α ^ m := pow_nonneg hα0.le m
      have hle : α ^ m ≤ 1 := pow_le_one₀ hα0.le hα1.le
      nlinarith
    have h6 : (2 * α ^ m) ^ 2 < ε ^ 2 := by nlinarith
    calc residSq n α M (m + 1)
        ≤ (l1Norm n (fun i => piSeq n α M m i - piSeq n α M (m + 1) i)) ^ 2 := h2
      _ ≤ (2 * α ^ m) ^ 2 := h4
      _ < ε ^ 2 := h6

lemma oneM1_rowStochastic : rowStochastic 1 oneM1 := by
  constructor
  · intro i j
    norm_num [oneM1]
  · intro i
    rw [Fin.sum_univ_one]
    norm_num [oneM1]

/-- Witness for claim C1 at the concrete 1×1 stochastic matrix. -/
theorem pageRank_google_matrix_and_terminates_witness :
    (∀ i j, googleM 1 (1 / 2) oneM1 i j = (1 / 2) * oneM1 i j + (1 - 1 / 2) / ((1 : ℕ) : ℚ)) ∧
    (∀ i j, 0 < googleM 1 (1 / 2) oneM1 i j) ∧
    (∀ i, ∑ j, googleM 1 (1 / 2) oneM1 i j = 1) ∧
    (∃ k, residSq 1 (1 / 2) oneM1 k < (1 / 2) ^ 2) :=
  pageRank_google_matrix_and_terminates 1 (1 / 2) (1 / 2) oneM1 (by norm_num)
    oneM1_rowStochastic (by norm_num) (by norm_num) (by norm_num)

/-- Claim C2: whenever the while loop exits (at the first residual test that
succeeds), the vector pageRank returns is entrywise nonnegative and sums to
exactly 1 in the rational model: it is a probability distribution. -/
theorem pageRank_result_is_distribution (n : ℕ) (α ε : ℚ)
    (M : Fin n → Fin n → ℚ) (hn : 0 < n) (hM : rowStochastic n M)
    (hα0 : 0 < α) (hα1 : α < 1) (k : ℕ) (hk : prExitAt n α ε M k) :
    (∀ i, 0 ≤ piSeq n α M k i) ∧ (∑ i, piSeq n α M k i) = 1 :=
  ⟨fun i => piSeq_nonneg n α M hM hα0.le hα1.le k i, piSeq_sum n α M hn hM k⟩

lemma piSeq_oneM1_one (i : Fin 1) : piSeq 1 (1 / 2) oneM1 1 i = 1 := by
  show vecMul 1 (piSeq 1 (1 / 2) oneM1 0) (googleM 1 (1 / 2) oneM1) i = 1
  unfold vecMul googleM oneM1 piSeq
  rw [Fin.sum_univ_one]
  norm_num

lemma prExitAt_oneM1 : prExitAt 1 (1 / 2) (1 / 2) oneM1 1 := by
  constructor
  · show sqNorm 1 (fun i => piSeq 1 (1 / 2) oneM1 0 i - piSeq 1 (1 / 2) oneM1 1 i)
        < (1 / 2) ^ 2
    unfold sqNorm
    rw [Fin.sum_univ_one]
    simp only [piSeq_oneM1_one]
    show ((1 : ℚ) / ((1 : ℕ) : ℚ) - 1) ^ 2 < (1 / 2) ^ 2
    norm_num
  · intro j hj
    have hj0 : j = 0 := by omega
    subst hj0
    show ((1 : ℚ) / 2) ^ 2 ≤ 1
    norm_num

/-- Witness for claim C2 at the concrete 1×1 stochastic matrix, whose loop
exits at the first test after one pass. -/
theorem pageRank_result_is_distribution_witness :
    (∀ i, 0 ≤ piSeq 1 (1 / 2) oneM1 1 i) ∧ (∑ i, piSeq 1 (1 / 2) oneM1 1 i) = 1 :=
  pageRank_result_is_distribution 1 (1 / 2) (1 / 2) oneM1 (by norm_num)
    oneM1_rowStochastic (by norm_num) (by norm_num) 1 prExitAt_oneM1

/-- Claim C9: on the 3-node uniform matrix with alpha = 0.85 and
epsilon = 1e-8, the loop body runs exactly once (the exit test succeeds at
index 1 and at no earlier index) and the returned vector is exactly
[1/3, 1/3, 1/3]. -/
theorem pageRank_uniform3_one_iteration :
    prExitAt 3 (17 / 20) (1 / 100000000) unifM3 1 ∧
    (∀ i, piSeq 3 (17 / 20) unifM3 1 i = 1 / 3) := by
  have hpi0 : ∀ i : Fin 3, piSeq 3 (17 / 20) unifM3 0 i = 1 / 3 := by
    intro i
    show (1 : ℚ) / ((3 : ℕ) : ℚ) = 1 / 3
    norm_num
  have hpi1 : ∀ i : Fin 3, piSeq 3 (17 / 20) unifM3 1 i = 1 / 3 := by
    intro i
    show vecMul 3 (piSeq 3 (17 / 20) unifM3 0) (googleM 3 (17 / 20) unifM3) i = 1 / 3
    unfold vecMul googleM
    rw [Fin.sum_univ_three]
    simp only [hpi0]
    norm_num [unifM3]
  refine ⟨⟨?_, ?_⟩, hpi1⟩
  · show sqNorm 3 (fun i => piSeq 3 (17 / 20) unifM3 0 i - piSeq 3 (17 / 20) unifM3 1 i)
        < (1 / 100000000) ^ 2
    unfold sqNorm
    rw [Fin.sum_univ_three]
    simp only [hpi0, hpi1]
    norm_num
  · intro j hj
    have hj0 : j = 0 := by omega
    subst hj0
    show ((1 : ℚ) / 100000000) ^ 2 ≤ 1
    norm_num

lemma toBin_nonneg (n : ℕ) (M : Fin n → Fin n → ℝ) (i j : Fin n) :
    0 ≤ toBin n M i j := by
  unfold toBin
  split <;> norm_num

lemma authMatrix_nonneg (n : ℕ) (M : Fin n → Fin n → ℝ) (i j : Fin n) :
    0 ≤ authMatrix n M i j :=
  Finset.sum_nonneg fun k _ => mul_nonneg (toBin_nonneg n M k i) (toBin_nonneg n M k j)

lemma hubMatrix_nonneg (n : ℕ) (M : Fin n → Fin n → ℝ) (i j : Fin n) :
    0 ≤ hubMatrix n M i j :=
  Finset.sum_nonneg fun k _ => mul_nonneg (toBin_nonneg n M i k) (toBin_nonneg n M j k)

/-- The damped update is strictly positive on nonnegative data: the
teleportation term (1 - xi)/n dominates. -/
lemma hitsRaw_pos (n : ℕ) (ξ : ℝ) (A : Fin n → Fin n → ℝ) (v : Fin n → ℝ)
    (hn : 0 < n) (hξ0 : 0 ≤ ξ) (hξ1 : ξ < 1)
    (hA : ∀ i j, 0 ≤ A i j) (hv : ∀ i, 0 ≤ v i) (j : Fin n) :
    0 < hitsRaw n ξ A v j := by
  unfold hitsRaw
  have hnR : (0 : ℝ) < (n : ℝ) := by exact_mod_cast hn
  have h1 : 0 ≤ ξ * ∑ i, v i * A i j :=
    mul_nonneg hξ0 (Finset.sum_nonneg fun i _ => mul_nonneg (hv i) (hA i j))
  have h2 : 0 < (1 - ξ) * (1 / (n : ℝ)) := by
    refine mul_pos (by linarith) (by positivity)
  linarith

lemma norm2_pos_of_entry_pos (n : ℕ) (v : Fin n → ℝ) (i0 : Fin n)
    (h : 0 < v i0) : 0 < norm2 n v := by
  unfold norm2
  refine Real.sqrt_pos.mpr ?_
  have hle : v i0 ^ 2 ≤ ∑ i, v i ^ 2 :=
    Finset.single_le_sum (fun i _ => sq_nonneg (v i)) (Finset.mem_univ i0)
  nlinarith

/-- Dividing a vector by its (positive) Euclidean norm yields a unit vector. -/
lemma norm2_normalize (n : ℕ) (v : Fin n → ℝ) (h : 0 < norm2 n v) :
    norm2 n (hitsNormalize n v) = 1 := by
  have hcalc : (∑ j, (v j / norm2 n v) ^ 2) = (∑ j, v j ^ 2) / (norm2 n v) ^ 2 := by
    rw [Finset.sum_div]
    refine Finset.sum_congr rfl fun j _ => ?_
    rw [div_pow]
  show Real.sqrt (∑ j, hitsNormalize n v j ^ 2) = 1
  unfold hitsNormalize
  rw [hcalc]
  unfold norm2 at *
  rw [Real.sqrt_div (Finset.sum_nonneg fun j _ => sq_nonneg (v j)),
    Real.sqrt_sq (Real.sqrt_nonneg _)]
  exact div_self (ne_of_gt h)

/-- Every authority iterate is entrywise nonnegative. -/
lemma hitsSeq_x_nonneg (n : ℕ) (ξ : ℝ) (M : Fin n → Fin n → ℝ)
    (hn : 0 < n) (hξ0 : 0 ≤ ξ) (hξ1 : ξ < 1) (k : ℕ) (i : Fin n) :
    0 ≤ (hitsSeq n ξ M k).x i := by
  induction k generalizing i with
  | zero =>
      show (0 : ℝ) ≤ 1 / (n : ℝ)
      have hnR : (0 : ℝ) < (n : ℝ) := by exact_mod_cast hn
      positivity
  | succ k ih =>
      show 0 ≤ hitsNormalize n (hitsRaw n ξ (authMatrix n M) ((hitsSeq n ξ M k).x)) i
      have hraw : ∀ j, 0 < hitsRaw n ξ (authMatrix n M) ((hitsSeq n ξ M k).x) j :=
        hitsRaw_pos n ξ _ _ hn hξ0 hξ1 (authMatrix_nonneg n M) ih
      have hpos : 0 < norm2 n (hitsRaw n ξ (authMatrix n M) ((hitsSeq n ξ M k).x)) :=
        norm2_pos_of_entry_pos n _ ⟨0, hn⟩ (hraw ⟨0, hn⟩)
      exact div_nonneg (hraw i).le hpos.le

/-- Every hub iterate is entrywise nonnegative. -/
lemma hitsSeq_y_nonneg (n : ℕ) (ξ : ℝ) (M : Fin n → Fin n → ℝ)
    (hn : 0 < n) (hξ0 : 0 ≤ ξ) (hξ1 : ξ < 1) (k : ℕ) (i : Fin n) :
    0 ≤ (hitsSeq n ξ M k).y i := by
  induction k generalizing i with
  | zero =>
      show (0 : ℝ) ≤ 1 / (n : ℝ)
      have hnR : (0 : ℝ) < (n : ℝ) := by exact_mod_cast hn
      positivity
  | succ k ih =>
      show 0 ≤ hitsNormalize n (hitsRaw n ξ (hubMatrix n M) ((hitsSeq n ξ M k).y)) i
      have hraw : ∀ j, 0 < hitsRaw n ξ (hubMatrix n M) ((hitsSeq n ξ M k).y) j :=
        hitsRaw_pos n ξ _ _ hn hξ0 hξ1 (hubMatrix_nonneg n M) ih
      have hpos : 0 < norm2 n (hitsRaw n ξ (hubMatrix n M) ((hitsSeq n ξ M k).y)) :=
        norm2_pos_of_entry_pos n _ ⟨0, hn⟩ (hraw ⟨0, hn⟩)
      exact div_nonneg (hraw i).le hpos.le

/-- After every completed loop pass the authority vector has unit norm. -/
lemma hitsSeq_x_norm_one (n : ℕ) (ξ : ℝ) (M : Fin n → Fin n → ℝ)
    (hn : 0 < n) (hξ0 : 0 ≤ ξ) (hξ1 : ξ < 1) (k : ℕ) :
    norm2 n ((hitsSeq n ξ M (k + 1)).x) = 1 := by
  have hraw : ∀ j, 0 < hitsRaw n ξ (authMatrix n M) ((hitsSeq n ξ M k).x) j :=
    hitsRaw_pos n ξ _ _ hn hξ0 hξ1 (authMatrix_nonneg n M)
      (fun i => hitsSeq_x_nonneg n ξ M hn hξ0 hξ1 k i)
  have hpos : 0 < norm2 n (hitsRaw n ξ (authMatrix n M) ((hitsSeq n ξ M k).x)) :=
    norm2_pos_of_entry_pos n _ ⟨0, hn⟩ (hraw ⟨0, hn⟩)
  exact norm2_normalize n _ hpos

/-- After every completed loop pass the hub vector has unit norm. -/
lemma hitsSeq_y_norm_one (n : ℕ) (ξ : ℝ) (M : Fin n → Fin n → ℝ)
    (hn : 0 < n) (hξ0 : 0 ≤ ξ) (hξ1 : ξ < 1) (k : ℕ) :
    norm2 n ((hitsSeq n ξ M (k + 1)).y) = 1 := by
  have hraw : ∀ j, 0 < hitsRaw n ξ (hubMatrix n M) ((hitsSeq n ξ M k).y) j :=
    hitsRaw_pos n ξ _ _ hn hξ0 hξ1 (hubMatrix_nonneg n M)
      (fun i => hitsSeq_y_nonneg n ξ M hn hξ0 hξ1 k i)
  have hpos : 0 < norm2 n (hitsRaw n ξ (hubMatrix n M) ((hitsSeq n ξ M k).y)) :=
    norm2_pos_of_entry_pos n _ ⟨0, hn⟩ (hraw ⟨0, hn⟩)
  exact norm2_normalize n _ hpos

/-- Claim C5: each iteration of the HITS loop replaces each score vector by
the damped matrix product plus the uniform teleportation term, renormalized to
unit Euclidean norm; the residual tested against epsilon is the sum of the two
deltas norms; and whenever the loop exits (the first successful test, which
for epsilon at most 1 can only happen after at least one pass, since the
residual starts at 1), both returned vectors are entrywise nonnegative and
have Euclidean norm exactly 1. -/
theorem hits_step_shape_and_exit (n : ℕ) (ξ ε : ℝ) (M : Fin n → Fin n → ℝ)
    (hn : 0 < n) (hξ0 : 0 < ξ) (hξ1 : ξ < 1) (hε0 : 0 < ε) (hε1 : ε ≤ 1)
    (k : ℕ) (hk : hitsExitAt n ξ ε M k) :
    (∀ m, (hitsSeq n ξ M (m + 1)).x
        = hitsNormalize n (hitsRaw n ξ (authMatrix n M) ((hitsSeq n ξ M m).x))) ∧
    (∀ m, (hitsSeq n ξ M (m + 1)).y
        = hitsNormalize n (hitsRaw n ξ (hubMatrix n M) ((hitsSeq n ξ M m).y))) ∧
    (∀ m, (hitsSeq n ξ M (m + 1)).resid
        = norm2 n (fun i => (hitsSeq n ξ M m).x i - (hitsSeq n ξ M (m + 1)).x i)
          + norm2 n (fun i => (hitsSeq n ξ M m).y i - (hitsSeq n ξ M (m + 1)).y i)) ∧
    (∀ i, 0 ≤ (hitsSeq n ξ M k).x i) ∧ norm2 n ((hitsSeq n ξ M k).x) = 1 ∧
    (∀ i, 0 ≤ (hitsSeq n ξ M k).y i) ∧ norm2 n ((hitsSeq n ξ M k).y) = 1 := by
  have hk1 : 1 ≤ k := by
    rcases Nat.eq_zero_or_pos k with hk0 | hpos
    · exfalso
      rw [hk0] at hk
      have h1 : (hitsSeq n ξ M 0).resid = 1 := rfl
      have h2 := hk.1
      rw [h1] at h2
      linarith
    · exact hpos
  obtain ⟨m, rfl⟩ : ∃ m, k = m + 1 := ⟨k - 1, by omega⟩
  refine ⟨fun m => rfl, fun m => rfl, fun m => rfl, ?_, ?_, ?_, ?_⟩
  · exact fun i => hitsSeq_x_nonneg n ξ M hn hξ0.le hξ1 (m + 1) i
  · exact hitsSeq_x_norm_one n ξ M hn hξ0.le hξ1 m
  · exact fun i => hitsSeq_y_nonneg n ξ M hn hξ0.le hξ1 (m + 1) i
  · exact hitsSeq_y_norm_one n ξ M hn hξ0.le hξ1 m

lemma authMatrix_zeroR1 (i j : Fin 1) : authMatrix 1 zeroR1 i j = 0 := by
  unfold authMatrix
  rw [Fin.sum_univ_one]
  simp [toBin, zeroR1]

lemma hubMatrix_zeroR1 (i j : Fin 1) : hubMatrix 1 zeroR1 i j = 0 := by
  unfold hubMatrix
  rw [Fin.sum_univ_one]
  simp [toBin, zeroR1]

lemma hitsRaw_zeroR1_auth (v : Fin 1 → ℝ) :
    hitsRaw 1 (1 / 2) (authMatrix 1 zeroR1) v = fun _ => 1 / 2 := by
  funext j
  unfold hitsRaw
  rw [Fin.sum_univ_one, authMatrix_zeroR1]
  norm_num

lemma hitsRaw_zeroR1_hub (v : Fin 1 → ℝ) :
    hitsRaw 1 (1 / 2) (hubMatrix 1 zeroR1) v = fun _ => 1 / 2 := by
  funext j
  unfold hitsRaw
  rw [Fin.sum_univ_one, hubMatrix_zeroR1]
  norm_num

lemma hitsNormalize_half : hitsNormalize 1 (fun _ => (1 / 2 : ℝ)) = fun _ => 1 := by
  funext j
  unfold hitsNormalize norm2
  rw [Fin.sum_univ_one, Real.sqrt_sq (by norm_num : (0 : ℝ) ≤ 1 / 2)]
  norm_num

lemma hitsSeq_zeroR1_resid_one : (hitsSeq 1 (1 / 2) zeroR1 1).resid = 0 := by
  show norm2 1 (fun i => (hitsSeq 1 (1 / 2) zeroR1 0).x i
        - hitsNormalize 1 (hitsRaw 1 (1 / 2) (authMatrix 1 zeroR1)
            ((hitsSeq 1 (1 / 2) zeroR1 0).x)) i)
      + norm2 1 (fun i => (hitsSeq 1 (1 / 2) zeroR1 0).y i
        - hitsNormalize 1 (hitsRaw 1 (1 / 2) (hubMatrix 1 zeroR1)
            ((hitsSeq 1 (1 / 2) zeroR1 0).y)) i) = 0
  rw [hitsRaw_zeroR1_auth, hitsRaw_zeroR1_hub, hitsNormalize_half]
  have hdiff : (fun i : Fin 1 => (hitsSeq 1 (1 / 2) zeroR1 0).x i - (fun _ : Fin 1 => (1 : ℝ)) i)
      = fun _ => 0 := by
    funext i
    show (1 : ℝ) / ((1 : ℕ) : ℝ) - 1 = 0
    norm_num
  have hdiffy : (fun i : Fin 1 => (hitsSeq 1 (1 / 2) zeroR1 0).y i - (fun _ : Fin 1 => (1 : ℝ)) i)
      = fun _ => 0 := by
    funext i
    show (1 : ℝ) / ((1 : ℕ) : ℝ) - 1 = 0
    norm_num
  rw [hdiff, hdiffy]
  unfold norm2
  rw [Fin.sum_univ_one]
  norm_num

lemma hitsExitAt_zeroR1 : hitsExitAt 1 (1 / 2) (1 / 2) zeroR1 1 := by
  constructor
  · rw [hitsSeq_zeroR1_resid_one]
    norm_num
  · intro j hj
    have hj0 : j = 0 := by omega
    subst hj0
    show (1 : ℝ) / 2 ≤ (hitsSeq 1 (1 / 2) zeroR1 0).resid
    show (1 : ℝ) / 2 ≤ 1
    norm_num

/-- Witness for claim C5 at the 1×1 zero matrix with xi = 1/2 and
epsilon = 1/2, whose loop exits after exactly one pass. -/
theorem hits_step_shape_and_exit_witness :
    (∀ m, (hitsSeq 1 (1 / 2) zeroR1 (m + 1)).x
        = hitsNormalize 1 (hitsRaw 1 (1 / 2) (authMatrix 1 zeroR1) ((hitsSeq 1 (1 / 2) zeroR1 m).x))) ∧
    (∀ m, (hitsSeq 1 (1 / 2) zeroR1 (m + 1)).y
        = hitsNormalize 1 (hitsRaw 1 (1 / 2) (hubMatrix 1 zeroR1) ((hitsSeq 1 (1 / 2) zeroR1 m).y))) ∧
    (∀ m, (hitsSeq 1 (1 / 2) zeroR1 (m + 1)).resid
        = norm2 1 (fun i => (hitsSeq 1 (1 / 2) zeroR1 m).x i - (hitsSeq 1 (1 / 2) zeroR1 (m + 1)).x i)
          + norm2 1 (fun i => (hitsSeq 1 (1 / 2) zeroR1 m).y i - (hitsSeq 1 (1 / 2) zeroR1 (m + 1)).y i)) ∧
    (∀ i, 0 ≤ (hitsSeq 1 (1 / 2) zeroR1 1).x i) ∧ norm2 1 ((hitsSeq 1 (1 / 2) zeroR1 1).x) = 1 ∧
    (∀ i, 0 ≤ (hitsSeq 1 (1 / 2) zeroR1 1).y i) ∧ norm2 1 ((hitsSeq 1 (1 / 2) zeroR1 1).y) = 1 :=
  hits_step_shape_and_exit 1 (1 / 2) (1 / 2) zeroR1 (by norm_num) (by norm_num)
    (by norm_num) (by norm_num) (by norm_num) 1 hitsExitAt_zeroR1

/-- Claim C6: the HITS engine coerces the input to the 0/1 presence matrix L
(an entry of L is 1 exactly when the corresponding input entry is nonzero)
and derives authMatrix = transpose(L) @ L and hubMatrix = L @ transpose(L);
both derived n×n matrices are symmetric and entrywise nonnegative. -/
theorem hits_derived_matrices (n : ℕ) (M : Fin n → Fin n → ℝ) :
    (∀ i j, toBin n M i j = 0 ∨ toBin n M i j = 1) ∧
    (∀ i j, toBin n M i j = 1 ↔ M i j ≠ 0) ∧
    (∀ i j, authMatrix n M i j = ∑ k, toBin n M k i * toBin n M k j) ∧
    (∀ i j, hubMatrix n M i j = ∑ k, toBin n M i k * toBin n M j k) ∧
    (∀ i j, authMatrix n M i j = authMatrix n M j i) ∧
    (∀ i j, hubMatrix n M i j = hubMatrix n M j i) ∧
    (∀ i j, 0 ≤ authMatrix n M i j) ∧
    (∀ i j, 0 ≤ hubMatrix n M i j) := by
  refine ⟨fun i j => ?_, fun i j => ?_, fun i j => rfl, fun i j => rfl,
    fun i j => ?_, fun i j => ?_, authMatrix_nonneg n M, hubMatrix_nonneg n M⟩
  · unfold toBin
    split
    · exact Or.inl rfl
    · exact Or.inr rfl
  · by_cases h : M i j = 0 <;> simp [toBin, h]
  · unfold authMatrix
    refine Finset.sum_congr rfl fun k _ => mul_comm _ _
  · unfold hubMatrix
    refine Finset.sum_congr rfl fun k _ => mul_comm _ _

/-- Claim C10: the HITS engine depends on its input only through the zero
pattern of the entries; two matrices with identical supports produce the very
same iterate sequence and the loop exits at the same index, hence the returned
(authority, hub) pair is identical. -/
theorem hits_support_invariance (n : ℕ) (ξ ε : ℝ) (M₁ M₂ : Fin n → Fin n → ℝ)
    (h : ∀ i j, M₁ i j ≠ 0 ↔ M₂ i j ≠ 0) :
    (∀ k, hitsSeq n ξ M₁ k = hitsSeq n ξ M₂ k) ∧
    (∀ k, hitsExitAt n ξ ε M₁ k ↔ hitsExitAt n ξ ε M₂ k) := by
  have hbin : toBin n M₁ = toBin n M₂ := by
    funext i j
    unfold toBin
    by_cases h0 : M₁ i j = 0
    · have h2 : M₂ i j = 0 := by
        by_contra hc
        exact ((h i j).mpr hc) h0
      rw [if_pos h0, if_pos h2]
    · have h2 : M₂ i j ≠ 0 := (h i j).mp h0
      rw [if_neg h0, if_neg h2]
  have hauth : authMatrix n M₁ = authMatrix n M₂ := by
    unfold authMatrix
    rw [hbin]
  have hhub : hubMatrix n M₁ = hubMatrix n M₂ := by
    unfold hubMatrix
    rw [hbin]
  have hseq : ∀ k, hitsSeq n ξ M₁ k = hitsSeq n ξ M₂ k := by
    intro k
    induction k with
    | zero => rfl
    | succ k ih =>
        show hitsStep n ξ M₁ (hitsSeq n ξ M₁ k) = hitsStep n ξ M₂ (hitsSeq n ξ M₂ k)
        rw [ih]
        unfold hitsStep
        rw [hauth, hhub]
  refine ⟨hseq, fun k => ?_⟩
  unfold hitsExitAt
  rw [hseq k]
  constructor
  · rintro ⟨h1, h2⟩
    refine ⟨h1, fun j hj => ?_⟩
    rw [← hseq j]
    exact h2 j hj
  · rintro ⟨h1, h2⟩
    refine ⟨h1, fun j hj => ?_⟩
    rw [hseq j]
    exact h2 j hj

/-- Witness for claim C10: the matrices with constant entries 1 and 2 have the
same support, so their HITS states agree; instantiated at iterate 1. -/
theorem hits_support_invariance_witness :
    hitsSeq 1 (1 / 2) oneR1 1 = hitsSeq 1 (1 / 2) twoR1 1 :=
  (hits_support_invariance 1 (1 / 2) (1 / 2) oneR1 twoR1
    (fun i j => by norm_num [oneR1, twoR1])).1 1

lemma googleTransformL_mat45_length :
    (googleTransformL (17 / 20) mat45).length = 4 := by
  simp [googleTransformL, mat45]

lemma googleTransformL_mat45_colCount :
    colCount (googleTransformL (17 / 20) mat45) = 5 := by
  simp [googleTransformL, colCount, mat45]

/-- Counterexample to claim C8: on the malformed 4×5 input, the first
power-iteration multiplication `np.matmul(pi, G)` executes successfully (the
inner dimensions 4 and 4 agree), so pageRank performs power-iteration work on
the malformed matrix instead of rejecting it beforehand; no InvalidShapeError
or validation of any kind precedes the loop. -/
theorem pageRank_no_prevalidation_cex :
    (npVecMatMul (List.replicate 4 ((1 : ℚ) / 4))
      (googleTransformL (17 / 20) mat45)).isSome = true := by
  unfold npVecMatMul
  rw [if_pos]
  · rfl
  · rw [List.length_replicate, googleTransformL_mat45_length]

/-- Claim C8 as amended: pageRank and hypertextInducedTopicSearch perform no
input validation at all.  On the 4×5 matrix, pageRank runs the Google
transform over the 4×4 leading block, performs the first power-iteration
multiply (yielding a length-5 vector), and only then fails, with a numpy
broadcasting shape error in the residual subtraction of the first loop pass;
HITS builds its authority matrix successfully (5×5) and fails inside its
first loop pass at the multiply `np.matmul(x, authMatrix)` (length 4 against
5 rows).  Neither function raises anything before iterating. -/
theorem pageRank_hits_shape_failure_mid_iteration :
    pageRankL mat45 (17 / 20) (1 / 100) 10
      = Except.error (NpError.broadcastMismatch 4 5) ∧
    hitsAuthL mat45 ≠ none ∧
    hitsFirstMul mat45 = none := by
  refine ⟨?_, ?_, ?_⟩
  · have hpi : (List.replicate mat45.length ((1 : ℚ) / (mat45.length : ℚ))).length = 4 := by
      simp [mat45]
    have hG4 : (googleTransformL (17 / 20) mat45).length = 4 :=
      googleTransformL_mat45_length
    unfold pageRankL
    show pageRankLoopL (googleTransformL (17 / 20) mat45) ((1 / 100) ^ 2) (9 + 1)
        (List.replicate mat45.length (1 / (mat45.length : ℚ))) 1 = _
    unfold pageRankLoopL
    rw [if_neg (by norm_num)]
    have h1 : npVecMatMul (List.replicate mat45.length (1 / (mat45.length : ℚ)))
        (googleTransformL (17 / 20) mat45)
        = some ((List.range (colCount (googleTransformL (17 / 20) mat45))).map
            (dotColumn (List.replicate mat45.length (1 / (mat45.length : ℚ)))
              (googleTransformL (17 / 20) mat45))) := by
      unfold npVecMatMul
      rw [if_pos]
      rw [hpi, hG4]
    have h2 : npSub (List.replicate mat45.length (1 / (mat45.length : ℚ)))
        ((List.range 5).map
          (dotColumn (List.replicate mat45.length (1 / (mat45.length : ℚ)))
            (googleTransformL (17 / 20) mat45))) = none := by
      unfold npSub
      rw [if_neg]
      rw [hpi, List.length_map, List.length_range]
      norm_num
    simp only [h1, h2, hpi, List.length_map, List.length_range,
      googleTransformL_mat45_colCount]
  · unfold hitsAuthL npMatMul
    rw [if_pos]
    · exact Option.some_ne_none _
    · simp [transposeL, toBinL, colCount, mat45]
  · unfold hitsFirstMul hitsAuthL npMatMul
    rw [if_pos]
    · show npVecMatMul (List.replicate mat45.length (1 / (mat45.length : ℚ))) _ = none
      unfold npVecMatMul
      rw [if_neg]
      rw [List.length_replicate, List.length_map]
      simp [transposeL, toBinL, colCount, mat45]
    · simp [transposeL, toBinL, colCount, mat45]

end CompModels
